import Mathlib

/-!
Verification of the Evidexia retrieval-augmented extraction core.

Shallow embedding of `src/lib/document-processor.ts` and
`src/lib/ai-processor.ts`.  JavaScript strings are modelled as `List Char`
(one element per UTF-16 code unit; all inputs used here are in the BMP, where
code units and characters coincide).  JavaScript numbers are modelled as `ℚ`
where exactness matters (embedding coordinates, similarity scores,
confidences) and as `Nat`/`Int` for indices and lengths.  `Math.sqrt`, which
has no exact rational counterpart, is an explicit function parameter
`sqrt : ℚ → ℚ`; every theorem below holds for an arbitrary `sqrt` (with the
single documented exception that the zero-vector claim assumes `sqrt 0 = 0`,
which is true of IEEE-754 `Math.sqrt`).  Fallible JavaScript code (functions
that can `throw`) returns `Except (List Char) _`.

Loops are written with an explicit structural fuel so that every definition
reduces in the kernel; a fuel of the input length is always sufficient
because every iteration consumes at least one character (for `chunkText`
this sufficiency is itself one of the verified claims).
-/

/-! ## Character classes (JavaScript `\s`, `\w`, `\d`, `[a-zA-Z%]`) -/

/-- JavaScript `\s`: the ECMAScript WhiteSpace and LineTerminator code
points.  This is also the character class trimmed by `String.prototype.trim`. -/
def isJsWS (c : Char) : Bool :=
  c = ' ' || c = '\t' || c = '\n' || c = '\r' || c = '\x0b' || c = '\x0c' ||
  c = '\u00a0' || c = '\u1680' ||
  c = '\u2000' || c = '\u2001' || c = '\u2002' || c = '\u2003' ||
  c = '\u2004' || c = '\u2005' || c = '\u2006' || c = '\u2007' ||
  c = '\u2008' || c = '\u2009' || c = '\u200a' ||
  c = '\u2028' || c = '\u2029' || c = '\u202f' || c = '\u205f' ||
  c = '\u3000' || c = '\ufeff'

/-- JavaScript `\w`: ASCII letters, digits and underscore. -/
def isWordChar (c : Char) : Bool :=
  c.isAlpha || c.isDigit || c = '_'

/-- The character class `[a-zA-Z%]` used for the unit token in
`parseMetricAnswer`.  Note that it does not contain digits. -/
def isUnitChar (c : Char) : Bool :=
  c.isAlpha || c = '%'

/-- JavaScript `String.prototype.trim`: drop whitespace from both ends. -/
def jsTrim (l : List Char) : List Char :=
  ((l.dropWhile isJsWS).reverse.dropWhile isJsWS).reverse

/-- JavaScript `String.prototype.slice(start, end)` for non-negative indices. -/
def jsSlice (l : List Char) (s e : Nat) : List Char :=
  (l.take e).drop s

/-! ## Global regex replacement

The function `replaceG m fuel l` models `l.replace(re, rep)` with the `g` flag for a
regex whose behaviour at a given position is captured by the matcher `m`:
`m s = some (k, repl)` means the regex matches a prefix of `s` of length `k`
and the (already instantiated) replacement is `repl`; `m s = none` means no
match starts at this position.  Scanning is leftmost, and after a match the
scan resumes past the consumed characters, exactly as `RegExp.lastIndex`
advances; an empty match keeps the current character and advances by one.
The structural fuel is sufficient whenever `fuel ≥ l.length` since each step
consumes at least one character of the input. -/
def replaceG (m : List Char → Option (Nat × List Char)) : Nat → List Char → List Char
  | _, [] => []
  | 0, l => l
  | fuel + 1, c :: cs =>
    match m (c :: cs) with
    | some (0, repl) => repl ++ c :: replaceG m fuel cs
    | some (k + 1, repl) => repl ++ replaceG m fuel (cs.drop k)
    | none => c :: replaceG m fuel cs

/-! ## normalizeText (document-processor.ts, lines 38-57)

Each `.replace` stage of `normalizeText` gets one matcher.  The matchers
resolve the greedy/backtracking behaviour of the corresponding regex into a
deterministic scan; the derivation is noted where it is not immediate. -/

/-- Matcher for `/(\w+)-\s*\n\s*(\w+)/g` replaced by `'$1$2'` (rejoin words
hyphenated across a line break).  Greedy `\w+` runs are maximal (no
backtracking can help because `\w`, `-` and `\s` are disjoint classes), and
`\s*\n\s*` matches a maximal whitespace run iff that run contains at least
one `'\n'` (the two greedy `\s*` pieces backtrack only on the positions of
`'\n'` inside the run, and the run's last character is followed by a
non-whitespace character, so the full run is consumed). -/
def matchHyphenBreak (l : List Char) : Option (Nat × List Char) :=
  let w1 := l.takeWhile isWordChar
  if w1.isEmpty then none else
  match l.drop w1.length with
  | '-' :: rest2 =>
    let ws := rest2.takeWhile isJsWS
    if '\n' ∈ ws then
      let rest3 := rest2.drop ws.length
      let w2 := rest3.takeWhile isWordChar
      if w2.isEmpty then none
      else some (w1.length + 1 + ws.length + w2.length, w1 ++ w2)
    else none
  | _ => none

/-- Matcher for `/\s+/g` replaced by `' '` (collapse whitespace runs). -/
def matchWSRun (l : List Char) : Option (Nat × List Char) :=
  match l with
  | c :: cs => if isJsWS c then some ((cs.takeWhile isJsWS).length + 1, [' ']) else none
  | [] => none

/-- Index just past the last `'\n'` of `w` (0 when `w` has no `'\n'`). -/
def pastLastNL (w : List Char) : Nat :=
  w.length - (w.reverse.takeWhile (fun c => c ≠ '\n')).length

/-- Matcher for `/\n\s*\n\s*\n/g` replaced by `'\n\n'`.  The pattern matches
at a position iff the character there is `'\n'` and the maximal whitespace
run starting there contains at least three `'\n'`; backtracking of the two
greedy `\s*` pieces lands the second and third literal `'\n'` on the last
two `'\n'` of the run, so the match extends through the run's last `'\n'`. -/
def matchTripleBreak (l : List Char) : Option (Nat × List Char) :=
  match l with
  | '\n' :: r1 =>
    let w1 := r1.takeWhile isJsWS
    if 2 ≤ w1.count '\n' then some (pastLastNL w1 + 1, ['\n', '\n'])
    else none
  | _ => none

/-- Digit-string value, as `parseInt` computes it on an all-digit string. -/
def digitsVal (l : List Char) : Nat :=
  l.foldl (fun a c => 10 * a + (c.toNat - '0'.toNat)) 0

/-- Case-insensitive test that `pat` (given lowercase) is an initial segment
of `l`, following the ASCII case folding of the regex `i` flag. -/
def ciLooksAt (pat l : List Char) : Bool :=
  (l.take pat.length).map Char.toLower == pat

/-- Matcher for `/(\d+),(\d+)\s*(k|K)\s*(tCO2|CO2|tonnes?)/gi` replaced by
the computed `` `${parseInt(p1)*1000+parseInt(p2)} ${unit.toLowerCase() === 'tco2' ? 'tCO2e' : unit}` ``.
All the greedy pieces are forced (digits, `','`, whitespace, `k` and the
unit alternatives are pairwise disjoint at their boundaries); the
alternation tries `tCO2`, then `CO2`, then `tonnes`, then `tonne`. -/
def matchKiloUnit (l : List Char) : Option (Nat × List Char) :=
  let d1 := l.takeWhile Char.isDigit
  if d1.isEmpty then none else
  match l.drop d1.length with
  | ',' :: r2 =>
    let d2 := r2.takeWhile Char.isDigit
    if d2.isEmpty then none else
    let r3 := r2.drop d2.length
    let ws1 := r3.takeWhile isJsWS
    match r3.drop ws1.length with
    | k :: r4 =>
      if k.toLower = 'k' then
        let ws2 := r4.takeWhile isJsWS
        let r5 := r4.drop ws2.length
        let unitLen :=
          if ciLooksAt "tco2".toList r5 then some 4
          else if ciLooksAt "co2".toList r5 then some 3
          else if ciLooksAt "tonnes".toList r5 then some 6
          else if ciLooksAt "tonne".toList r5 then some 5
          else none
        match unitLen with
        | some n =>
          let unit := r5.take n
          let value := digitsVal d1 * 1000 + digitsVal d2
          let unitOut := if unit.map Char.toLower = "tco2".toList
                         then "tCO2e".toList else unit
          some (d1.length + 1 + d2.length + ws1.length + 1 + ws2.length + n,
                (Nat.repr value).toList ++ ' ' :: unitOut)
        | none => none
      else none
    | [] => none
  | _ => none

/-- Matcher for `/(\d+(?:\.\d+)?)\s*%/g` replaced by `'$1%'`.  The optional
decimal part is tried greedily first, falling back to the bare integer. -/
def matchPercent (l : List Char) : Option (Nat × List Char) :=
  let ds := l.takeWhile Char.isDigit
  if ds.isEmpty then none else
  let rest := l.drop ds.length
  let tryDec : Option (Nat × List Char) :=
    match rest with
    | '.' :: r2 =>
      let fs := r2.takeWhile Char.isDigit
      if fs.isEmpty then none else
      let r3 := r2.drop fs.length
      let ws := r3.takeWhile isJsWS
      match r3.drop ws.length with
      | '%' :: _ =>
        some (ds.length + 1 + fs.length + ws.length + 1, ds ++ '.' :: (fs ++ ['%']))
      | _ => none
    | _ => none
  match tryDec with
  | some res => some res
  | none =>
    let ws := rest.takeWhile isJsWS
    match rest.drop ws.length with
    | '%' :: _ => some (ds.length + ws.length + 1, ds ++ ['%'])
    | _ => none

/-- Comma-separated digit groups `(?:,\d+)*`, returning the consumed
characters and the remainder.  Greedy and backtrack-free: after a partial
iteration count the next character is `','`, which no later pattern piece
of either currency regex can match. -/
def scanGroups : Nat → List Char → List Char × List Char
  | _, [] => ([], [])
  | 0, l => ([], l)
  | fuel + 1, ',' :: rest =>
    let ds := rest.takeWhile Char.isDigit
    if ds.isEmpty then ([], ',' :: rest)
    else
      let p := scanGroups fuel (rest.drop ds.length)
      (',' :: (ds ++ p.1), p.2)
  | _ + 1, l => ([], l)

/-- The numeric literal `(\d+(?:,\d+)*(?:\.\d+)?)`: leading digits, then
comma groups, then an optional decimal part.  Returns the matched characters
and the remainder, or `none` if the position does not start with a digit. -/
def scanNumber (l : List Char) : Option (List Char × List Char) :=
  let ds := l.takeWhile Char.isDigit
  if ds.isEmpty then none
  else
    let p := scanGroups l.length (l.drop ds.length)
    let q :=
      match p.2 with
      | '.' :: r2 =>
        let fs := r2.takeWhile Char.isDigit
        if fs.isEmpty then (([] : List Char), p.2) else ('.' :: fs, r2.drop fs.length)
      | _ => ([], p.2)
    some (ds ++ p.1 ++ q.1, q.2)

/-- Matcher for `/€\s*(\d+(?:,\d+)*(?:\.\d+)?)/g` replaced by `'€$1'`. -/
def matchEuroNum (l : List Char) : Option (Nat × List Char) :=
  match l with
  | '€' :: rest =>
    let ws := rest.takeWhile isJsWS
    match scanNumber (rest.drop ws.length) with
    | some (num, _) => some (1 + ws.length + num.length, '€' :: num)
    | none => none
  | _ => none

/-- Matcher for `/(\d+(?:,\d+)*(?:\.\d+)?)\s*€/g` replaced by `'€$1'`. -/
def matchNumEuro (l : List Char) : Option (Nat × List Char) :=
  match scanNumber l with
  | some (num, rest) =>
    let ws := rest.takeWhile isJsWS
    match rest.drop ws.length with
    | '€' :: _ => some (num.length + ws.length + 1, '€' :: num)
    | _ => none
  | none => none

/-- Text normalization (`normalizeText`, document-processor.ts lines 38-57):
the seven `.replace` stages in source order, then `.trim()`. -/
def normalizeText (l : List Char) : List Char :=
  let s1 := replaceG matchHyphenBreak l.length l
  let s2 := replaceG matchWSRun s1.length s1
  let s3 := replaceG matchTripleBreak s2.length s2
  let s4 := replaceG matchKiloUnit s3.length s3
  let s5 := replaceG matchPercent s4.length s4
  let s6 := replaceG matchEuroNum s5.length s5
  let s7 := replaceG matchNumEuro s6.length s6
  jsTrim s7

/-! ## chunkText (document-processor.ts, lines 69-96) -/

/-- JavaScript `String.prototype.lastIndexOf(c, fromIdx)` for a single character:
the largest index `≤ fromIdx` holding `c`, or `-1`. -/
def lastIndexOf (l : List Char) (c : Char) (fromIdx : Nat) : Int :=
  let pre := l.take (fromIdx + 1)
  match pre.reverse.findIdx? (fun x => x == c) with
  | some j => ((pre.length - 1 - j : Nat) : Int)
  | none => -1

/-- The window end chosen by one `chunkText` iteration: the raw candidate
`min (start + maxChars) len`, snapped to one past the last sentence
terminator or line break at or before it when that break point lies past the
window midpoint.  The float comparison `breakPoint > start + maxChars * 0.5`
is exact in IEEE-754 for integer operands, hence equals the integer
comparison `2 * breakPoint > 2 * start + maxChars`. -/
def chunkEnd (text : List Char) (maxChars start : Nat) : Nat :=
  let e := min (start + maxChars) text.length
  if e < text.length then
    let sentenceEnd := lastIndexOf text '.' e
    let paragraphEnd := lastIndexOf text '\n' e
    let breakPoint := max sentenceEnd paragraphEnd
    if 2 * breakPoint > 2 * (start : Int) + (maxChars : Int) then breakPoint.toNat + 1
    else e
  else e

/-- The `while (start < text.length)` loop of `chunkText`, with structural
fuel; `none` means the fuel ran out before the loop finished.  The loop
advances `start = max(start + 1, end - overlap)` (with the subtraction
truncated at 0, which agrees with `Math.max` against a negative number). -/
def chunkLoop (text : List Char) (maxChars overlap : Nat) : Nat → Nat → Option (List (List Char))
  | 0, start => if start < text.length then none else some []
  | fuel + 1, start =>
    if start < text.length then
      let e := chunkEnd text maxChars start
      match chunkLoop text maxChars overlap fuel (max (start + 1) (e - overlap)) with
      | some rest => some (jsTrim (jsSlice text start e) :: rest)
      | none => none
    else some []

/-- Split text into chunks (`chunkText`, document-processor.ts lines 69-96):
texts no longer than `maxChars` are returned whole; otherwise the sliding
window runs (fuel `text.length` suffices, see `chunkLoop_isSome`) and chunks
of at most 50 characters are filtered out. -/
def chunkText (text : List Char) (maxChars overlap : Nat) : List (List Char) :=
  if text.length ≤ maxChars then [text]
  else ((chunkLoop text maxChars overlap text.length 0).getD []).filter
    (fun c => 50 < c.length)

/-! ## Data model (ai-processor.ts and document-processor.ts interfaces) -/

/-- A document chunk (`DocumentChunk`, document-processor.ts lines 18-25). -/
structure DocumentChunk where
  id : List Char
  page : Option Nat
  startChar : Option Nat
  endChar : Option Nat
  text : List Char
  source : List Char
deriving DecidableEq

/-- Modelled from the spec: the file `src/lib/esrs-metrics.ts` defining
`ESRSMetric` and the `ESRS_METRICS` catalog is not part of the sources, so
the record follows the spec's `MetricDefinition` data model: `{id, label,
keywords, description, unit?, priority (integer, lower = higher priority),
category, regulation}`.  All theorems below quantify over arbitrary metrics
and catalogs, so no catalog contents are assumed. -/
structure ESRSMetric where
  id : List Char
  label : List Char
  keywords : List (List Char)
  description : List Char
  unit : Option (List Char)
  priority : Int
  category : List Char
  regulation : List Char
deriving DecidableEq

/-- An embedded chunk (`EmbeddingResult`, ai-processor.ts lines 8-12). -/
structure EmbeddingResult where
  embedding : List ℚ
  text : List Char
  chunkId : List Char
deriving DecidableEq

/-- One extraction outcome (`MetricExtraction`, ai-processor.ts lines 14-23). -/
structure MetricExtraction where
  metricId : List Char
  value : Option (List Char)
  units : Option (List Char)
  confidence : ℚ
  evidenceChunk : Option DocumentChunk
  evidenceSpan : Option (List Char)
  isModelled : Bool
  explanation : Option (List Char)
deriving DecidableEq

/-- The aggregate result (`ExtractionResult`, ai-processor.ts lines 25-29).
Wall-clock `processingTime` is outside the embedding and fixed at 0. -/
structure ExtractionResult where
  extractions : List MetricExtraction
  processingTime : ℚ
  totalChunks : Nat

/-- The answer record produced by `AIModelManager.extractAnswer`
(ai-processor.ts lines 78-99), after its `answer/text`, `score/confidence`
fallbacks have been applied. -/
structure QAAnswer where
  answer : List Char
  confidence : ℚ
  startOff : Nat
  endOff : Nat
deriving DecidableEq

/-- The two black-box models behind the initialized `aiModelManager`
(initialization itself is abstracted; a per-call failure, i.e. a rejected
promise, is an `Except.error` carrying the message). -/
structure AIModels where
  embed : List Char → Except (List Char) (List ℚ)
  qa : List Char → List Char → Except (List Char) QAAnswer

/-! ## Embedding generation and similarity (ai-processor.ts, lines 106-177) -/

/-- Embed every chunk (`generateChunkEmbeddings`, lines 106-135): a chunk
whose embedding call fails is logged and skipped, so it is simply absent
from the result.  The advisory progress callback is dropped. -/
def generateChunkEmbeddings (M : AIModels) (chunks : List DocumentChunk) :
    List EmbeddingResult :=
  chunks.filterMap (fun c =>
    match M.embed c.text with
    | .ok e => some ⟨e, c.text, c.id⟩
    | .error _ => none)

/-- The accumulating loop of `cosineSimilarity`: `Σ aᵢ * bᵢ` (with `b := a`
it is the squared norm accumulator of the same loop). -/
def dotProduct (a b : List ℚ) : ℚ :=
  (a.zip b).foldl (fun s p => s + p.1 * p.2) 0

/-- The divisor `Math.sqrt(normA) * Math.sqrt(normB)` of `cosineSimilarity`. -/
def cosineDenom (sqrt : ℚ → ℚ) (a b : List ℚ) : ℚ :=
  sqrt (dotProduct a a) * sqrt (dotProduct b b)

/-- Cosine similarity (`cosineSimilarity`, lines 138-154): throws on a
length mismatch, and otherwise divides the dot product by the product of
norms with no guard against a zero divisor (in JavaScript a zero-vector
argument therefore yields `0/0 = NaN`; `ℚ` has no NaN, so the theorems
expose the zero divisor itself). -/
def cosineSimilarity (sqrt : ℚ → ℚ) (a b : List ℚ) : Except (List Char) ℚ :=
  if a.length ≠ b.length then .error "Vectors must have the same length".toList
  else .ok (dotProduct a b / cosineDenom sqrt a b)

/-- Stable insertion step: `x` is placed before the first element it may
precede, and after every element it must follow. -/
def insertRanked {α : Type} (le : α → α → Bool) (x : α) : List α → List α
  | [] => [x]
  | y :: ys => if le x y then x :: y :: ys else y :: insertRanked le x ys

/-- Stable sort by insertion.  `Array.prototype.sort` with a consistent
comparator is required by ES2019 to be a stable sort, and a stable sort's
output is uniquely determined by the induced total preorder, so insertion
sort is a faithful model of the engine's TimSort. -/
def stableSort {α : Type} (le : α → α → Bool) : List α → List α
  | [] => []
  | x :: xs => insertRanked le x (stableSort le xs)

/-- The comparator `(a, b) => b.similarity - a.similarity`: `a` may precede
`b` iff `a`'s similarity is at least `b`'s. -/
def simDesc (x y : EmbeddingResult × ℚ) : Bool :=
  decide (y.2 ≤ x.2)

/-- The sort step of `findRelevantChunks`. -/
def rankBySimilarity (sims : List (EmbeddingResult × ℚ)) :
    List (EmbeddingResult × ℚ) :=
  stableSort simDesc sims

/-- JavaScript `Array.prototype.join(sep)`. -/
def joinWith (sep : List Char) : List (List Char) → List Char
  | [] => []
  | [x] => x
  | x :: xs => x ++ sep ++ joinWith sep xs

/-- Retrieval (`findRelevantChunks`, lines 157-177): embed the search query
built from the metric's label, keywords and description, attach a cosine
similarity to every indexed entry, sort descending (stable) and keep the
first `topK`.  A rejected embedding call or a length-mismatch throw
propagates as the error. -/
def findRelevantChunks (sqrt : ℚ → ℚ) (M : AIModels) (metric : ESRSMetric)
    (chunkEmbeddings : List EmbeddingResult) (topK : Nat) :
    Except (List Char) (List (EmbeddingResult × ℚ)) := do
  let searchQuery := metric.label ++ (' ' :: joinWith [' '] metric.keywords)
    ++ (' ' :: metric.description)
  let queryEmbedding ← M.embed searchQuery
  let similarities ← chunkEmbeddings.mapM (fun ch => do
    let s ← cosineSimilarity sqrt queryEmbedding ch.embedding
    pure (ch, s))
  pure ((rankBySimilarity similarities).take topK)

/-! ## Question generation and answer parsing (ai-processor.ts, lines 236-278) -/

/-- The fixed question table of `generateQuestionForMetric` (lines 237-248). -/
def baseQuestions : List (List Char × List Char) :=
  [("E1-1".toList, "What is the total Scope 1 GHG emissions in tCO2e?".toList),
   ("E1-2".toList, "What is the total Scope 2 GHG emissions in tCO2e?".toList),
   ("E1-3".toList, "What is the total Scope 3 GHG emissions in tCO2e?".toList),
   ("E1-4".toList, "What is the total energy consumption in MWh?".toList),
   ("E1-5".toList, "What percentage of energy comes from renewable sources?".toList),
   ("E3-1".toList, "What is the total water consumption in cubic meters?".toList),
   ("E5-1".toList, "What is the total waste generated in tonnes?".toList),
   ("S1-1".toList, "How many employees does the company have?".toList),
   ("S1-2".toList, "What percentage of employees are female?".toList),
   ("S1-4".toList, "How many workplace injuries occurred?".toList)]

/-- Question selection (`generateQuestionForMetric`, lines 236-257): the
lookup table for known ids, else a generic question from label and unit. -/
def generateQuestionForMetric (metric : ESRSMetric) : List Char :=
  match (baseQuestions.find? (fun p => p.1 == metric.id)).map Prod.snd with
  | some q => q
  | none =>
    let unit := match metric.unit with
      | some u => " in ".toList ++ u
      | none => []
    "What is the ".toList ++ metric.label.map Char.toLower ++ unit ++ ['?']

/-- The qualifier alternatives of `/^(the\s+|total\s+|approximately\s+|about\s+)/i`,
in source order. -/
def qualifierWords : List (List Char) :=
  ["the".toList, "total".toList, "approximately".toList, "about".toList]

/-- Strip the anchored leading-qualifier match, if any: the first
alternative whose word matches case-insensitively and is followed by at
least one whitespace character is removed together with that (maximal)
whitespace run. -/
def stripQualifier : List (List Char) → List Char → List Char
  | [], l => l
  | w :: ws_, l =>
    if ciLooksAt w l then
      let rest := l.drop w.length
      let wsr := rest.takeWhile isJsWS
      if wsr.isEmpty then stripQualifier ws_ l else rest.drop wsr.length
    else stripQualifier ws_ l

/-- The first (leftmost) match of `/(\d+(?:,\d+)*(?:\.\d+)?)\s*([a-zA-Z%]+)?/`:
since the pattern succeeds at every digit, the match starts at the first
digit of the string.  Returns the numeric literal and the optional unit
token (`none` when the `[a-zA-Z%]+` group did not participate). -/
def findNumericMatch : List Char → Option (List Char × Option (List Char))
  | [] => none
  | c :: cs =>
    if c.isDigit then
      match scanNumber (c :: cs) with
      | some (num, rest) =>
        let ws := rest.takeWhile isJsWS
        let unit := (rest.drop ws.length).takeWhile isUnitChar
        some (num, if unit.isEmpty then none else some unit)
      | none => none
    else findNumericMatch cs

/-- Answer parsing (`parseMetricAnswer`, lines 260-278): strip a leading
qualifier, trim, and look for a numeric literal with an optional unit token;
thousands separators are removed from the value; a missing unit token falls
back to the metric's declared unit (the JavaScript `||` would also reject an
empty-string token, but `[a-zA-Z%]+` never captures an empty token).  With
no numeric match, the cleaned answer itself is the value. -/
def parseMetricAnswer (answer : List Char) (metric : ESRSMetric) :
    Option (List Char) × Option (List Char) :=
  let cleanAnswer := jsTrim (stripQualifier qualifierWords answer)
  match findNumericMatch cleanAnswer with
  | some (num, unitTok) =>
    let value := num.filter (fun c => c ≠ ',')
    let units := match unitTok with
      | some u => some u
      | none => metric.unit
    (some value, units)
  | none => (some cleanAnswer, none)

/-! ## Evidence attribution and extraction (ai-processor.ts, lines 180-300) -/

/-- JavaScript `String.prototype.includes`: contiguous-substring test. -/
def containsSeq (hay needle : List Char) : Bool :=
  match hay with
  | [] => needle.isEmpty
  | _ :: t => needle.isPrefixOf hay || containsSeq t needle

/-- The body of the evidence-scan loop (`findEvidenceChunk`, lines 287-292):
the source chunk with this entry's id, provided it contains the answer
verbatim. -/
def evidenceHit (answer : List Char) (documentChunks : List DocumentChunk)
    (rc : EmbeddingResult) : Option DocumentChunk :=
  match documentChunks.find? (fun c => c.id == rc.chunkId) with
  | some sourceChunk =>
    if containsSeq sourceChunk.text answer then some sourceChunk else none
  | none => none

/-- Evidence attribution (`findEvidenceChunk`, lines 281-300): first
retrieved entry (in similarity order) whose source chunk contains the answer
verbatim; otherwise the source chunk of the first retrieved entry;
otherwise nothing. -/
def findEvidenceChunk (answer : List Char) (documentChunks : List DocumentChunk)
    (relevantChunks : List EmbeddingResult) : Option DocumentChunk :=
  match relevantChunks.findSome? (evidenceHit answer documentChunks) with
  | some sourceChunk => some sourceChunk
  | none =>
    match relevantChunks with
    | [] => none
    | rc :: _ => documentChunks.find? (fun c => c.id == rc.chunkId)

/-- Per-metric extraction (`extractMetricValue`, lines 180-233): build the
context from the retrieved chunks, short-circuit on an empty context, ask
the QA model, parse and attribute; a QA failure is caught and becomes a
zero-confidence extraction.  The human-readable percentage inside the
success explanation (`toFixed(1)`) is abstracted to the fixed text since no
claim depends on it. -/
def extractMetricValue (M : AIModels) (metric : ESRSMetric)
    (relevantChunks : List (EmbeddingResult × ℚ))
    (documentChunks : List DocumentChunk) : MetricExtraction :=
  let context := joinWith ['\n', '\n'] (relevantChunks.map (fun rc => rc.1.text))
  if (jsTrim context).length = 0 then
    { metricId := metric.id, value := none, units := none, confidence := 0,
      evidenceChunk := none, evidenceSpan := none, isModelled := false,
      explanation := some "No relevant context found".toList }
  else
    match M.qa (generateQuestionForMetric metric) context with
    | .ok qaResult =>
      let vu := parseMetricAnswer qaResult.answer metric
      { metricId := metric.id, value := vu.1, units := vu.2,
        confidence := qaResult.confidence,
        evidenceChunk := findEvidenceChunk qaResult.answer documentChunks
          (relevantChunks.map (fun rc => rc.1)),
        evidenceSpan := some qaResult.answer, isModelled := false,
        explanation := some "Extracted from context".toList }
    | .error e =>
      { metricId := metric.id, value := none, units := none, confidence := 0,
        evidenceChunk := none, evidenceSpan := none, isModelled := false,
        explanation := some ("Extraction failed: ".toList ++ e) }

/-- The metric selection of `extractAllMetrics` (lines 318-321): the
catalog entries with `priority <= 2`, sorted ascending by priority with the
stable comparator `(a, b) => a.priority - b.priority`. -/
def selectedMetrics (catalog : List ESRSMetric) : List ESRSMetric :=
  stableSort (fun a b => decide (a.priority ≤ b.priority))
    (catalog.filter (fun m => decide (m.priority ≤ 2)))

/-- The main pipeline (`extractAllMetrics`, lines 303-361): embed every
chunk, then for each selected metric run retrieval and extraction, with any
error of the two steps caught at the metric boundary and recorded as a
zero-confidence extraction.  Progress callbacks and logging are dropped. -/
def extractAllMetrics (sqrt : ℚ → ℚ) (M : AIModels) (catalog : List ESRSMetric)
    (documentChunks : List DocumentChunk) : ExtractionResult :=
  let chunkEmbeddings := generateChunkEmbeddings M documentChunks
  let priorityMetrics := selectedMetrics catalog
  let extractions := priorityMetrics.map (fun metric =>
    match findRelevantChunks sqrt M metric chunkEmbeddings 3 with
    | .ok relevantChunks => extractMetricValue M metric relevantChunks documentChunks
    | .error e =>
      { metricId := metric.id, value := none, units := none, confidence := 0,
        evidenceChunk := none, evidenceSpan := none, isModelled := false,
        explanation := some ("Extraction failed: ".toList ++ e) })
  { extractions := extractions, processingTime := 0,
    totalChunks := documentChunks.length }

/-! ## Supporting lemmas: trimming and slicing -/

theorem jsTrim_sublist (l : List Char) : (jsTrim l).Sublist l := by
  have h1 : (l.dropWhile isJsWS).Sublist l := List.dropWhile_sublist _
  have h2 : ((l.dropWhile isJsWS).reverse.dropWhile isJsWS).Sublist
      (l.dropWhile isJsWS).reverse := List.dropWhile_sublist _
  have h3 := h2.reverse
  rw [List.reverse_reverse] at h3
  exact h3.trans h1

theorem jsTrim_length_le (l : List Char) : (jsTrim l).length ≤ l.length :=
  (jsTrim_sublist l).length_le

theorem lastIndexOf_le (l : List Char) (c : Char) (f : Nat) :
    lastIndexOf l c f ≤ (f : Int) := by
  unfold lastIndexOf
  dsimp only
  split
  · rename_i j hj
    have hlen : (l.take (f + 1)).length ≤ f + 1 := by
      rw [List.length_take]; omega
    have hn : (l.take (f + 1)).length - 1 - j ≤ f := by omega
    exact_mod_cast hn
  · omega

theorem chunkEnd_le (text : List Char) (maxChars start : Nat) :
    chunkEnd text maxChars start ≤ start + maxChars + 1 := by
  have hmin : min (start + maxChars) text.length ≤ start + maxChars :=
    min_le_left _ _
  simp only [chunkEnd]
  split
  · split
    · rename_i hcond
      have h1 := lastIndexOf_le text '.' (min (start + maxChars) text.length)
      have h2 := lastIndexOf_le text '\n' (min (start + maxChars) text.length)
      have h3 : max (lastIndexOf text '.' (min (start + maxChars) text.length))
          (lastIndexOf text '\n' (min (start + maxChars) text.length)) ≤
          ((min (start + maxChars) text.length : Nat) : Int) := max_le h1 h2
      have h4 := Int.toNat_le.mpr h3
      omega
    · omega
  · omega

/-! ## C9: chunkText terminates (fuel `text.length - start` suffices)

The loop advances `start` to `max (start + 1) (end - overlap) ≥ start + 1`,
so each iteration strictly shrinks `text.length - start`; consequently the
fueled loop completes (returns `some`) whenever the fuel is at least the
remaining distance, in particular for the fuel `text.length` that
`chunkText` passes, for every `overlap`, including `overlap ≥ maxChars`. -/

/-- Claim C9: `chunkText` terminates on every input for all parameter
values (including `overlap ≥ maxChars`): the window start strictly
increases each iteration (`start` becomes `max (start + 1) (end - overlap)`),
so fuel `text.length - start` is enough for the loop to complete. -/
theorem chunkLoop_isSome (text : List Char) (maxChars overlap fuel start : Nat)
    (h : text.length ≤ start + fuel) :
    (chunkLoop text maxChars overlap fuel start).isSome := by
  induction fuel generalizing start with
  | zero =>
    have hge : ¬ start < text.length := by omega
    simp [chunkLoop, hge]
  | succ fuel ih =>
    by_cases hlt : start < text.length
    · have hnext : start + 1 ≤ max (start + 1) (chunkEnd text maxChars start - overlap) :=
        Nat.le_max_left _ _
      have hrec := ih (max (start + 1) (chunkEnd text maxChars start - overlap)) (by omega)
      simp only [chunkLoop, if_pos hlt]
      cases hc : chunkLoop text maxChars overlap fuel
          (max (start + 1) (chunkEnd text maxChars start - overlap)) with
      | none => rw [hc] at hrec; simp at hrec
      | some rest => simp
    · simp [chunkLoop, hlt]

/-- Witness for C9 at a concrete input with `overlap ≥ maxChars`. -/
theorem chunkLoop_isSome_witness :
    (chunkLoop (List.replicate 130 'x') 60 100 130 0).isSome :=
  chunkLoop_isSome (List.replicate 130 'x') 60 100 130 0 (by simp)

/-! ## C2: chunk length bound

The claim `length ≤ maxChars` fails: when the text character at the raw
window end is itself a sentence terminator, `lastIndexOf` returns that very
position and the snap `end = breakPoint + 1` produces a window of
`maxChars + 1` characters.  The provable bound is `maxChars + 1`. -/

theorem chunkLoop_length_le (text : List Char) (maxChars overlap : Nat) :
    ∀ fuel start res, chunkLoop text maxChars overlap fuel start = some res →
    ∀ c ∈ res, c.length ≤ maxChars + 1 := by
  intro fuel
  induction fuel with
  | zero =>
    intro start res hres c hc
    by_cases hlt : start < text.length
    · simp [chunkLoop, hlt] at hres
    · simp [chunkLoop, hlt] at hres
      subst hres; simp at hc
  | succ fuel ih =>
    intro start res hres c hc
    by_cases hlt : start < text.length
    · simp only [chunkLoop, if_pos hlt] at hres
      cases hrec : chunkLoop text maxChars overlap fuel
          (max (start + 1) (chunkEnd text maxChars start - overlap)) with
      | none => rw [hrec] at hres; simp at hres
      | some rest =>
        rw [hrec] at hres
        simp only [Option.some.injEq] at hres
        subst hres
        rcases List.mem_cons.mp hc with hceq | hc
        · subst hceq
          have h1 := jsTrim_length_le (jsSlice text start (chunkEnd text maxChars start))
          have h2 : (jsSlice text start (chunkEnd text maxChars start)).length =
              min (chunkEnd text maxChars start) text.length - start := by
            simp [jsSlice, List.length_drop, List.length_take]
          have h3 := chunkEnd_le text maxChars start
          omega
        · exact ih _ _ hrec c hc
    · simp [chunkLoop, hlt] at hres
      subst hres; simp at hc

/-- Claim C2 (amended): every chunk returned by `chunkText` has length at
most `maxChars + 1` — the boundary snap can exceed `maxChars` by exactly
one, so the spec's bound `maxChars` is off by one. -/
theorem chunkText_length_le (text : List Char) (maxChars overlap : Nat)
    (c : List Char) (hc : c ∈ chunkText text maxChars overlap) :
    c.length ≤ maxChars + 1 := by
  unfold chunkText at hc
  by_cases hsmall : text.length ≤ maxChars
  · rw [if_pos hsmall] at hc
    simp at hc; subst hc; omega
  · rw [if_neg hsmall] at hc
    have hsome := chunkLoop_isSome text maxChars overlap text.length 0 (by omega)
    cases hres : chunkLoop text maxChars overlap text.length 0 with
    | none => rw [hres] at hsome; simp at hsome
    | some res =>
      rw [hres] at hc
      simp only [Option.getD_some] at hc
      exact chunkLoop_length_le text maxChars overlap text.length 0 res hres c
        (List.mem_of_mem_filter hc)

/-- Witness for the amended C2 at the concrete overshoot input. -/
theorem chunkText_length_le_witness :
    (List.replicate 60 'a' ++ ['.']).length ≤ 60 + 1 :=
  chunkText_length_le (List.replicate 60 'a' ++ ['.', 'b']) 60 0
    (List.replicate 60 'a' ++ ['.']) (by decide)

/-- Counterexample to C2 as stated: with `maxChars = 60` and a sentence
terminator at index 60, `chunkText` returns a 61-character chunk. -/
theorem chunkText_length_le_counterexample :
    ¬ (∀ c ∈ chunkText (List.replicate 60 'a' ++ ['.', 'b']) 60 0,
        c.length ≤ 60) := by
  decide

/-! ## C7: non-empty chunks

The claim fails on the empty text: `chunkText "" maxChars overlap` takes the
short-text branch and returns `[""]`, which contains an empty string.  For
every non-empty text the claim holds: the short-text branch returns the text
itself and the loop branch filters to chunks of more than 50 characters. -/

/-- Claim C7 (amended): for every non-empty input text, every element of
`chunkText text maxChars overlap` is a non-empty string. -/
theorem chunkText_ne_nil (text : List Char) (maxChars overlap : Nat)
    (htext : text ≠ []) (c : List Char)
    (hc : c ∈ chunkText text maxChars overlap) : c ≠ [] := by
  unfold chunkText at hc
  by_cases hsmall : text.length ≤ maxChars
  · rw [if_pos hsmall] at hc
    simp at hc; subst hc; exact htext
  · rw [if_neg hsmall] at hc
    have h50 := List.of_mem_filter hc
    simp only [decide_eq_true_eq] at h50
    intro hnil
    rw [hnil] at h50
    simp at h50

/-- Witness for the amended C7. -/
theorem chunkText_ne_nil_witness : "short text".toList ≠ [] :=
  chunkText_ne_nil "short text".toList 800 200 (by decide) "short text".toList
    (by decide)

/-- Counterexample to C7 as stated: on the empty text, the single-element
branch returns `[""]`, whose only element is empty. -/
theorem chunkText_ne_nil_counterexample :
    ¬ (∀ c ∈ chunkText ([] : List Char) 800 200, c ≠ []) := by
  decide

/-! ## Supporting lemmas: generic properties of `replaceG` -/

theorem replaceG_nil (m : List Char → Option (Nat × List Char)) (fuel : Nat) :
    replaceG m fuel [] = [] := by
  cases fuel <;> rfl

/-- A global replace whose matcher fails at every position is the identity. -/
theorem replaceG_id_of_none (m : List Char → Option (Nat × List Char)) :
    ∀ fuel l, l.length ≤ fuel → (∀ s : List Char, s <:+ l → m s = none) →
    replaceG m fuel l = l := by
  intro fuel
  induction fuel with
  | zero =>
    intro l hl _
    have : l = [] := List.length_eq_zero.mp (by omega)
    subst this; rfl
  | succ fuel ih =>
    intro l hl hnone
    cases l with
    | nil => rfl
    | cons c cs =>
      have h0 : m (c :: cs) = none := hnone (c :: cs) List.suffix_rfl
      simp only [replaceG, h0]
      have : replaceG m fuel cs = cs := by
        refine ih cs (by simp at hl; omega) ?_
        intro s hs
        exact hnone s (hs.trans (List.suffix_cons c cs))
      rw [this]

/-- Every character of a global-replace output either comes from the input
or satisfies the property `P` guaranteed for replacement characters. -/
theorem replaceG_mem (m : List Char → Option (Nat × List Char)) (P : Char → Prop)
    (hm : ∀ s k repl, m s = some (k, repl) → ∀ c ∈ repl, c ∈ s ∨ P c) :
    ∀ fuel l, l.length ≤ fuel → ∀ x ∈ replaceG m fuel l, x ∈ l ∨ P x := by
  intro fuel
  induction fuel with
  | zero =>
    intro l hl x hx
    have : l = [] := List.length_eq_zero.mp (by omega)
    subst this
    simp [replaceG_nil] at hx
  | succ fuel ih =>
    intro l hl x hx
    cases l with
    | nil => simp [replaceG_nil] at hx
    | cons c cs =>
      have hlen : cs.length ≤ fuel := by simp at hl; omega
      cases hmc : m (c :: cs) with
      | none =>
        simp only [replaceG, hmc] at hx
        rcases List.mem_cons.mp hx with rfl | hx
        · exact Or.inl (List.mem_cons_self _ _)
        · rcases ih cs hlen x hx with h | h
          · exact Or.inl (List.mem_cons_of_mem _ h)
          · exact Or.inr h
      | some kr =>
        obtain ⟨k, repl⟩ := kr
        cases k with
        | zero =>
          simp only [replaceG, hmc] at hx
          rcases List.mem_append.mp hx with hx | hx
          · exact hm _ _ _ hmc x hx
          · rcases List.mem_cons.mp hx with rfl | hx
            · exact Or.inl (List.mem_cons_self _ _)
            · rcases ih cs hlen x hx with h | h
              · exact Or.inl (List.mem_cons_of_mem _ h)
              · exact Or.inr h
        | succ k =>
          simp only [replaceG, hmc] at hx
          rcases List.mem_append.mp hx with hx | hx
          · exact hm _ _ _ hmc x hx
          · have hdl : (cs.drop k).length ≤ fuel := by
              rw [List.length_drop]; omega
            rcases ih (cs.drop k) hdl x hx with h | h
            · exact Or.inl (List.mem_cons_of_mem _ (List.drop_subset _ _ h))
            · exact Or.inr h

/-! ## Matcher facts: what a successful match requires and may emit -/

theorem matchHyphenBreak_requires_nl (s : List Char) (r : Nat × List Char)
    (h : matchHyphenBreak s = some r) : '\n' ∈ s := by
  unfold matchHyphenBreak at h
  dsimp only at h
  split at h
  · exact absurd h (by simp)
  · split at h
    · rename_i rest2 heq
      split at h
      · rename_i hnl
        have h1 : '\n' ∈ rest2 := (List.takeWhile_sublist _).subset hnl
        have h2 : '\n' ∈ '-' :: rest2 := List.mem_cons_of_mem _ h1
        rw [← heq] at h2
        exact List.drop_subset _ _ h2
      · exact absurd h (by simp)
    · exact absurd h (by simp)

theorem matchHyphenBreak_repl_mem (s : List Char) (k : Nat) (repl : List Char)
    (h : matchHyphenBreak s = some (k, repl)) : ∀ c ∈ repl, c ∈ s := by
  unfold matchHyphenBreak at h
  dsimp only at h
  split at h
  · exact absurd h (by simp)
  · split at h
    · rename_i rest2 heq
      split at h
      · split at h
        · exact absurd h (by simp)
        · simp only [Option.some.injEq, Prod.mk.injEq] at h
          intro c hc
          rw [← h.2] at hc
          rcases List.mem_append.mp hc with hc | hc
          · exact (List.takeWhile_sublist _).subset hc
          · have h1 : c ∈ rest2.drop (rest2.takeWhile isJsWS).length :=
              (List.takeWhile_sublist _).subset hc
            have h2 : c ∈ '-' :: rest2 :=
              List.mem_cons_of_mem _ (List.drop_subset _ _ h1)
            rw [← heq] at h2
            exact List.drop_subset _ _ h2
      · exact absurd h (by simp)
    · exact absurd h (by simp)

theorem matchTripleBreak_requires_nl (s : List Char) (r : Nat × List Char)
    (h : matchTripleBreak s = some r) : '\n' ∈ s := by
  unfold matchTripleBreak at h
  split at h
  · exact List.mem_cons_self _ _
  · exact absurd h (by simp)

/-- A nonempty `takeWhile Char.isDigit` prefix yields a digit character of
the list. -/
theorem exists_digit_of_takeWhile_ne_nil (l : List Char)
    (h : ¬ (l.takeWhile Char.isDigit).isEmpty) :
    ∃ c ∈ l, c.isDigit = true := by
  rw [List.isEmpty_iff] at h
  obtain ⟨c, hc⟩ := List.exists_mem_of_ne_nil _ h
  exact ⟨c, (List.takeWhile_sublist _).subset hc, List.mem_takeWhile_imp hc⟩

theorem scanNumber_requires_digit (l : List Char) (r : List Char × List Char)
    (h : scanNumber l = some r) : ∃ c ∈ l, c.isDigit = true := by
  unfold scanNumber at h
  dsimp only at h
  split at h
  · exact absurd h (by simp)
  · rename_i hne
    exact exists_digit_of_takeWhile_ne_nil l hne

theorem matchKiloUnit_requires_digit (s : List Char) (r : Nat × List Char)
    (h : matchKiloUnit s = some r) : ∃ c ∈ s, c.isDigit = true := by
  unfold matchKiloUnit at h
  dsimp only at h
  split at h
  · exact absurd h (by simp)
  · rename_i hne
    exact exists_digit_of_takeWhile_ne_nil s hne

theorem matchPercent_requires_digit (s : List Char) (r : Nat × List Char)
    (h : matchPercent s = some r) : ∃ c ∈ s, c.isDigit = true := by
  unfold matchPercent at h
  dsimp only at h
  split at h
  · exact absurd h (by simp)
  · rename_i hne
    exact exists_digit_of_takeWhile_ne_nil s hne

theorem matchEuroNum_requires_digit (s : List Char) (r : Nat × List Char)
    (h : matchEuroNum s = some r) : ∃ c ∈ s, c.isDigit = true := by
  unfold matchEuroNum at h
  split at h
  · rename_i rest
    dsimp only at h
    split at h
    · rename_i num rest2 hscan
      obtain ⟨c, hc, hd⟩ := scanNumber_requires_digit _ _ hscan
      have h1 : c ∈ rest := List.drop_subset _ _ hc
      exact ⟨c, List.mem_cons_of_mem _ h1, hd⟩
    · exact absurd h (by simp)
  · exact absurd h (by simp)

theorem matchNumEuro_requires_digit (s : List Char) (r : Nat × List Char)
    (h : matchNumEuro s = some r) : ∃ c ∈ s, c.isDigit = true := by
  unfold matchNumEuro at h
  split at h
  · rename_i num rest hscan
    exact scanNumber_requires_digit _ _ hscan
  · exact absurd h (by simp)

/-! ## Rule-level identity lemmas -/

/-- The dehyphenation rule is the identity on texts without line breaks. -/
theorem hyphenRule_id (l : List Char) (fuel : Nat) (hf : l.length ≤ fuel)
    (hnl : '\n' ∉ l) : replaceG matchHyphenBreak fuel l = l := by
  refine replaceG_id_of_none _ fuel l hf ?_
  intro s hs
  cases hms : matchHyphenBreak s with
  | none => rfl
  | some r => exact absurd (hs.subset (matchHyphenBreak_requires_nl s r hms)) hnl

/-- The triple-line-break rule is the identity on texts without line breaks. -/
theorem tripleRule_id (l : List Char) (fuel : Nat) (hf : l.length ≤ fuel)
    (hnl : '\n' ∉ l) : replaceG matchTripleBreak fuel l = l := by
  refine replaceG_id_of_none _ fuel l hf ?_
  intro s hs
  cases hms : matchTripleBreak s with
  | none => rfl
  | some r => exact absurd (hs.subset (matchTripleBreak_requires_nl s r hms)) hnl

/-- Texts without decimal digits. -/
def noDigit (l : List Char) : Prop := ∀ c ∈ l, c.isDigit = false

theorem noDigit_of_subset {l l' : List Char} (hsub : l' ⊆ l) (h : noDigit l) :
    noDigit l' := fun c hc => h c (hsub hc)

/-- The kilo-unit rule is the identity on digit-free texts. -/
theorem kiloRule_id (l : List Char) (fuel : Nat) (hf : l.length ≤ fuel)
    (hd : noDigit l) : replaceG matchKiloUnit fuel l = l := by
  refine replaceG_id_of_none _ fuel l hf ?_
  intro s hs
  cases hms : matchKiloUnit s with
  | none => rfl
  | some r =>
    obtain ⟨c, hc, hdig⟩ := matchKiloUnit_requires_digit s r hms
    rw [hd c (hs.subset hc)] at hdig; cases hdig

/-- The percent rule is the identity on digit-free texts. -/
theorem percentRule_id (l : List Char) (fuel : Nat) (hf : l.length ≤ fuel)
    (hd : noDigit l) : replaceG matchPercent fuel l = l := by
  refine replaceG_id_of_none _ fuel l hf ?_
  intro s hs
  cases hms : matchPercent s with
  | none => rfl
  | some r =>
    obtain ⟨c, hc, hdig⟩ := matchPercent_requires_digit s r hms
    rw [hd c (hs.subset hc)] at hdig; cases hdig

/-- The euro-before-number rule is the identity on digit-free texts. -/
theorem euroNumRule_id (l : List Char) (fuel : Nat) (hf : l.length ≤ fuel)
    (hd : noDigit l) : replaceG matchEuroNum fuel l = l := by
  refine replaceG_id_of_none _ fuel l hf ?_
  intro s hs
  cases hms : matchEuroNum s with
  | none => rfl
  | some r =>
    obtain ⟨c, hc, hdig⟩ := matchEuroNum_requires_digit s r hms
    rw [hd c (hs.subset hc)] at hdig; cases hdig

/-- The number-before-euro rule is the identity on digit-free texts. -/
theorem numEuroRule_id (l : List Char) (fuel : Nat) (hf : l.length ≤ fuel)
    (hd : noDigit l) : replaceG matchNumEuro fuel l = l := by
  refine replaceG_id_of_none _ fuel l hf ?_
  intro s hs
  cases hms : matchNumEuro s with
  | none => rfl
  | some r =>
    obtain ⟨c, hc, hdig⟩ := matchNumEuro_requires_digit s r hms
    rw [hd c (hs.subset hc)] at hdig; cases hdig

/-! ## The whitespace-collapse rule: output shape and fixed points -/

/-- Whitespace-normal form: every whitespace character is a plain space and
no two whitespace characters are adjacent.  This is the shape produced by
the `\s+ → ' '` rule (and preserved by trimming). -/
def wsClean (l : List Char) : Prop :=
  (∀ c ∈ l, isJsWS c = true → c = ' ') ∧
  l.Chain' (fun a b => ¬ (isJsWS a = true ∧ isJsWS b = true))

theorem wsClean_nil : wsClean [] := ⟨by simp, List.chain'_nil⟩

theorem wsClean_no_nl {l : List Char} (h : wsClean l) : '\n' ∉ l := by
  intro hmem
  have := h.1 '\n' hmem (by decide)
  cases this

/-- Unfolding: the whitespace rule on a non-whitespace head. -/
theorem wsRule_cons_nonws (c : Char) (cs : List Char) (fuel : Nat)
    (hc : isJsWS c = false) :
    replaceG matchWSRun (fuel + 1) (c :: cs) = c :: replaceG matchWSRun fuel cs := by
  simp [replaceG, matchWSRun, hc]

/-- Unfolding: the whitespace rule on a whitespace head consumes the whole
run and emits a single space. -/
theorem wsRule_cons_ws (c : Char) (cs : List Char) (fuel : Nat)
    (hc : isJsWS c = true) :
    replaceG matchWSRun (fuel + 1) (c :: cs) =
      ' ' :: replaceG matchWSRun fuel (cs.drop (cs.takeWhile isJsWS).length) := by
  simp [replaceG, matchWSRun, hc]

/-- The head of the list after dropping the maximal `p`-run fails `p`. -/
theorem head_drop_takeWhile (p : Char → Bool) :
    ∀ (l : List Char) (c : Char),
    (l.drop (l.takeWhile p).length).head? = some c → p c = false := by
  intro l
  induction l with
  | nil => intro c h; simp at h
  | cons d ds ih =>
    intro c h
    by_cases hd : p d
    · rw [List.takeWhile_cons_of_pos hd] at h
      simpa using ih c (by simpa using h)
    · rw [List.takeWhile_cons_of_neg hd] at h
      simp at h
      rw [← h]
      exact Bool.eq_false_iff.mpr hd

theorem wsRule_head_nonws (fuel : Nat) (l : List Char)
    (hl : ∀ c, l.head? = some c → isJsWS c = false) :
    ∀ b, (replaceG matchWSRun fuel l).head? = some b → isJsWS b = false := by
  intro b hb
  cases l with
  | nil => rw [replaceG_nil] at hb; simp at hb
  | cons d ds =>
    have hd : isJsWS d = false := hl d rfl
    cases fuel with
    | zero =>
      simp only [replaceG] at hb
      simp at hb
      rw [← hb]; exact hd
    | succ fuel =>
      rw [wsRule_cons_nonws d ds fuel hd] at hb
      simp at hb
      rw [← hb]; exact hd

/-- The whitespace rule always outputs a whitespace-normal text. -/
theorem wsRule_wsClean : ∀ fuel l, l.length ≤ fuel →
    wsClean (replaceG matchWSRun fuel l) := by
  intro fuel
  induction fuel with
  | zero =>
    intro l hl
    have : l = [] := List.length_eq_zero.mp (by omega)
    subst this
    rw [replaceG_nil]; exact wsClean_nil
  | succ fuel ih =>
    intro l hl
    cases l with
    | nil => rw [replaceG_nil]; exact wsClean_nil
    | cons c cs =>
      have hcs : cs.length ≤ fuel := by simp at hl; omega
      by_cases hc : isJsWS c = true
      · rw [wsRule_cons_ws c cs fuel hc]
        have hrest : (cs.drop (cs.takeWhile isJsWS).length).length ≤ fuel := by
          rw [List.length_drop]; omega
        have ihr := ih _ hrest
        constructor
        · intro x hx hwx
          rcases List.mem_cons.mp hx with rfl | hx
          · rfl
          · exact ihr.1 x hx hwx
        · rw [List.chain'_cons']
          refine ⟨?_, ihr.2⟩
          intro b hb
          intro hand
          have hbws : isJsWS b = false :=
            wsRule_head_nonws fuel _ (head_drop_takeWhile isJsWS cs) b hb
          rw [hbws] at hand
          exact absurd hand.2 (by simp)
      · rw [Bool.not_eq_true] at hc
        rw [wsRule_cons_nonws c cs fuel hc]
        have ihr := ih cs hcs
        constructor
        · intro x hx hwx
          rcases List.mem_cons.mp hx with rfl | hx
          · rw [hc] at hwx; cases hwx
          · exact ihr.1 x hx hwx
        · rw [List.chain'_cons']
          refine ⟨?_, ihr.2⟩
          intro b _ hand
          rw [hc] at hand
          exact absurd hand.1 (by simp)

/-- The whitespace rule is the identity on whitespace-normal texts. -/
theorem wsRule_id : ∀ fuel l, l.length ≤ fuel → wsClean l →
    replaceG matchWSRun fuel l = l := by
  intro fuel
  induction fuel with
  | zero =>
    intro l hl _
    have : l = [] := List.length_eq_zero.mp (by omega)
    subst this; rfl
  | succ fuel ih =>
    intro l hl hclean
    cases l with
    | nil => rfl
    | cons c cs =>
      have hcs : cs.length ≤ fuel := by simp at hl; omega
      have hcsclean : wsClean cs :=
        ⟨fun x hx => hclean.1 x (List.mem_cons_of_mem _ hx),
         (List.chain'_cons'.mp hclean.2).2⟩
      by_cases hc : isJsWS c = true
      · have hsp : c = ' ' := hclean.1 c (List.mem_cons_self _ _) hc
        have htw : cs.takeWhile isJsWS = [] := by
          cases cs with
          | nil => rfl
          | cons d ds =>
            have hlink := (List.chain'_cons'.mp hclean.2).1 d rfl
            have hdws : isJsWS d = false := by
              by_contra hdf
              rw [Bool.not_eq_false] at hdf
              exact hlink ⟨hc, hdf⟩
            rw [List.takeWhile_cons_of_neg (by rw [hdws]; simp)]
        rw [wsRule_cons_ws c cs fuel hc, htw]
        simp only [List.length_nil, List.drop_zero]
        rw [ih cs hcs hcsclean, hsp]
      · rw [Bool.not_eq_true] at hc
        rw [wsRule_cons_nonws c cs fuel hc, ih cs hcs hcsclean]

/-! ## Trimming preserves whitespace-normal form and is idempotent -/

theorem swap_not_and {a b : Char} (p : Char → Bool)
    (h : ¬ (p a = true ∧ p b = true)) : ¬ (p b = true ∧ p a = true) :=
  fun hx => h ⟨hx.2, hx.1⟩

theorem wsClean_jsTrim {l : List Char} (h : wsClean l) : wsClean (jsTrim l) := by
  constructor
  · intro c hc
    exact h.1 c ((jsTrim_sublist l).subset hc)
  · have h2 : List.Chain' (fun a b => ¬ (isJsWS a = true ∧ isJsWS b = true))
        (l.dropWhile isJsWS) := h.2.suffix (List.dropWhile_suffix _)
    have h3 : List.Chain' (fun a b => ¬ (isJsWS a = true ∧ isJsWS b = true))
        (l.dropWhile isJsWS).reverse :=
      List.chain'_reverse.mpr (h2.imp (fun a b => swap_not_and isJsWS))
    have h4 := h3.suffix (List.dropWhile_suffix isJsWS)
    exact List.chain'_reverse.mpr (h4.imp (fun a b => swap_not_and isJsWS))

theorem head_dropWhile (p : Char → Bool) :
    ∀ (l : List Char) (c : Char), (l.dropWhile p).head? = some c → p c = false := by
  intro l
  induction l with
  | nil => intro c h; simp at h
  | cons d ds ih =>
    intro c h
    by_cases hd : p d
    · rw [List.dropWhile_cons, if_pos hd] at h
      exact ih c h
    · rw [List.dropWhile_cons, if_neg hd] at h
      simp at h
      rw [← h]
      exact Bool.eq_false_iff.mpr hd

theorem dropWhile_eq_self_of_head (p : Char → Bool) (l : List Char)
    (h : ∀ c, l.head? = some c → p c = false) : l.dropWhile p = l := by
  cases l with
  | nil => rfl
  | cons d ds =>
    rw [List.dropWhile_cons, if_neg]
    rw [h d rfl]; simp

theorem getLast?_of_suffix {s t : List Char} (h : s <:+ t) (hne : s ≠ []) :
    s.getLast? = t.getLast? := by
  obtain ⟨u, rfl⟩ := h
  rw [List.getLast?_append]
  obtain ⟨a, ha⟩ := Option.isSome_iff_exists.mp (List.getLast?_isSome.mpr hne)
  rw [ha]; rfl

theorem jsTrim_head_nonws (l : List Char) (c : Char)
    (h : (jsTrim l).head? = some c) : isJsWS c = false := by
  unfold jsTrim at h
  rw [List.head?_reverse] at h
  by_cases hR2 : (l.dropWhile isJsWS).reverse.dropWhile isJsWS = []
  · rw [hR2] at h; simp at h
  · rw [getLast?_of_suffix (List.dropWhile_suffix isJsWS) hR2,
      List.getLast?_reverse] at h
    exact head_dropWhile isJsWS l c h

theorem jsTrim_getLast_nonws (l : List Char) (c : Char)
    (h : (jsTrim l).getLast? = some c) : isJsWS c = false := by
  unfold jsTrim at h
  rw [List.getLast?_reverse] at h
  exact head_dropWhile isJsWS _ c h

theorem jsTrim_idem (l : List Char) : jsTrim (jsTrim l) = jsTrim l := by
  have h1 : (jsTrim l).dropWhile isJsWS = jsTrim l :=
    dropWhile_eq_self_of_head isJsWS _ (jsTrim_head_nonws l)
  have h2 : (jsTrim l).reverse.dropWhile isJsWS = (jsTrim l).reverse := by
    refine dropWhile_eq_self_of_head isJsWS _ ?_
    intro c hc
    rw [List.head?_reverse] at hc
    exact jsTrim_getLast_nonws l c hc
  show (((jsTrim l).dropWhile isJsWS).reverse.dropWhile isJsWS).reverse = jsTrim l
  rw [h1, h2, List.reverse_reverse]

/-! ## C4: idempotence of normalizeText

The claim fails in general: the currency rules can create, on a second
pass, a match that the first pass did not see (`"5€€"` normalizes to
`"€5€"`, which normalizes again to `"€€5"`).  On digit-free inputs all
digit-driven rules (kilo-unit, percent, both currency rules) are inert and
idempotence holds. -/

theorem matchWSRun_repl (s : List Char) (k : Nat) (repl : List Char)
    (h : matchWSRun s = some (k, repl)) : repl = [' '] := by
  unfold matchWSRun at h
  split at h
  · split at h
    · simp only [Option.some.injEq, Prod.mk.injEq] at h
      exact h.2.symm
    · exact absurd h (by simp)
  · exact absurd h (by simp)

theorem noDigit_hyphenRule (l : List Char) (hd : noDigit l) :
    noDigit (replaceG matchHyphenBreak l.length l) := by
  intro c hc
  rcases replaceG_mem matchHyphenBreak (fun _ => False)
      (fun s k repl hm c hcr => Or.inl (matchHyphenBreak_repl_mem s k repl hm c hcr))
      l.length l le_rfl c hc with h | h
  · exact hd c h
  · cases h

theorem noDigit_wsRule (l : List Char) (hd : noDigit l) :
    noDigit (replaceG matchWSRun l.length l) := by
  intro c hc
  rcases replaceG_mem matchWSRun (fun c => c = ' ')
      (fun s k repl hm c hcr => by
        rw [matchWSRun_repl s k repl hm] at hcr
        simp at hcr
        exact Or.inr hcr)
      l.length l le_rfl c hc with h | h
  · exact hd c h
  · rw [h]; decide

/-- Claim C4 (amended): `normalizeText` is idempotent on every input
containing no decimal digit.  (On arbitrary inputs idempotence fails; see
the counterexample.) -/
theorem normalizeText_idem_of_noDigit (x : List Char)
    (hx : ∀ c ∈ x, c.isDigit = false) :
    normalizeText (normalizeText x) = normalizeText x := by
  have hx' : noDigit x := hx
  simp only [normalizeText]
  set s1 := replaceG matchHyphenBreak x.length x with hs1
  set s2 := replaceG matchWSRun s1.length s1 with hs2
  have hnd1 : noDigit s1 := noDigit_hyphenRule x hx'
  have hnd2 : noDigit s2 := noDigit_wsRule s1 hnd1
  have hclean2 : wsClean s2 := wsRule_wsClean s1.length s1 le_rfl
  have hnl2 : '\n' ∉ s2 := wsClean_no_nl hclean2
  rw [tripleRule_id s2 s2.length le_rfl hnl2]
  rw [kiloRule_id s2 s2.length le_rfl hnd2]
  rw [percentRule_id s2 s2.length le_rfl hnd2]
  rw [euroNumRule_id s2 s2.length le_rfl hnd2]
  rw [numEuroRule_id s2 s2.length le_rfl hnd2]
  set y := jsTrim s2 with hy
  have hynd : noDigit y := noDigit_of_subset (jsTrim_sublist s2).subset hnd2
  have hyclean : wsClean y := wsClean_jsTrim hclean2
  have hynl : '\n' ∉ y := wsClean_no_nl hyclean
  rw [hyphenRule_id y y.length le_rfl hynl]
  rw [wsRule_id y.length y le_rfl hyclean]
  rw [tripleRule_id y y.length le_rfl hynl]
  rw [kiloRule_id y y.length le_rfl hynd]
  rw [percentRule_id y y.length le_rfl hynd]
  rw [euroNumRule_id y y.length le_rfl hynd]
  rw [numEuroRule_id y y.length le_rfl hynd]
  rw [hy, jsTrim_idem]

/-- Witness for the amended C4 on a concrete digit-free input. -/
theorem normalizeText_idem_witness :
    normalizeText (normalizeText "  hello -\n world  ".toList) =
      normalizeText "  hello -\n world  ".toList :=
  normalizeText_idem_of_noDigit "  hello -\n world  ".toList (by decide)

/-- Counterexample to C4 as stated: the currency rules make a second pass
differ — `normalizeText "5€€" = "€5€"` but `normalizeText "€5€" = "€€5"`. -/
theorem normalizeText_idem_counterexample :
    normalizeText (normalizeText "5€€".toList) ≠ normalizeText "5€€".toList := by
  decide

/-! ## C5: three-or-more line breaks

The claim fails: the `\s+ → ' '` rule runs before the line-break rule and
removes every line break, so a run of three line breaks becomes a single
space, never two line breaks. -/

/-- Claim C5 (amended): a run of three consecutive line breaks is rewritten
by `normalizeText` into a single space (the whitespace-collapse rule runs
first; the dedicated three-line-break rule never fires). -/
theorem normalizeText_tripleNL :
    normalizeText "a\n\n\nb".toList = "a b".toList := by
  decide

/-- Counterexample to C5 as stated: the output for `"a\n\n\nb"` contains no
line break at all, in particular no run of exactly two line breaks. -/
theorem normalizeText_tripleNL_counterexample :
    '\n' ∉ normalizeText "a\n\n\nb".toList := by
  decide

/-! ## C3: parsing the QA answer "1,250 tCO2e"

The numeric literal parses as claimed (`value = "1250"`), but the unit
token class `[a-zA-Z%]+` contains no digits, so it stops in front of the
`'2'` of `"tCO2e"`: the parsed units are `"tCO"`, not `"tCO2e"`.  The
result does not depend on the metric (the declared-unit fallback is not
consulted when a unit token matched), so both theorems hold for arbitrary
metrics and in particular for the catalog's `E1-1`. -/

/-- Claim C3 (amended): parsing the QA answer `"1,250 tCO2e"` yields
`value = "1250"` (thousands separator stripped) and `units = "tCO"` (the
`[a-zA-Z%]+` unit token stops at the digit `'2'`), for every metric. -/
theorem parseMetricAnswer_scenarioB (metric : ESRSMetric) :
    parseMetricAnswer "1,250 tCO2e".toList metric =
      (some "1250".toList, some "tCO".toList) := by
  rfl

/-- A concrete stand-in for the catalog's `E1-1` metric (the catalog file
is not part of the sources; only the `id` matters here and the declared
unit is irrelevant because a unit token matched). -/
def sampleE11 : ESRSMetric :=
  { id := "E1-1".toList, label := "Scope 1 GHG emissions".toList,
    keywords := ["scope 1".toList, "direct emissions".toList],
    description := "Total direct greenhouse gas emissions".toList,
    unit := some "tCO2e".toList, priority := 1,
    category := "Climate".toList, regulation := "ESRS E1".toList }

/-- Counterexample to C3 as stated: the parsed units are not `"tCO2e"`. -/
theorem parseMetricAnswer_scenarioB_counterexample :
    parseMetricAnswer "1,250 tCO2e".toList sampleE11 ≠
      (some "1250".toList, some "tCO2e".toList) := by
  decide

/-! ## C10: cosineSimilarity on a zero vector -/

theorem foldl_add_mul_zero_left (l : List (ℚ × ℚ)) (h : ∀ p ∈ l, p.1 = 0) :
    ∀ s : ℚ, l.foldl (fun s p => s + p.1 * p.2) s = s := by
  induction l with
  | nil => intro s; rfl
  | cons p ps ih =>
    intro s
    have hp : p.1 = 0 := h p (List.mem_cons_self _ _)
    simp only [List.foldl_cons, hp, zero_mul, add_zero]
    exact ih (fun q hq => h q (List.mem_cons_of_mem _ hq)) s

theorem foldl_add_mul_zero_right (l : List (ℚ × ℚ)) (h : ∀ p ∈ l, p.2 = 0) :
    ∀ s : ℚ, l.foldl (fun s p => s + p.1 * p.2) s = s := by
  induction l with
  | nil => intro s; rfl
  | cons p ps ih =>
    intro s
    have hp : p.2 = 0 := h p (List.mem_cons_self _ _)
    simp only [List.foldl_cons, hp, mul_zero, add_zero]
    exact ih (fun q hq => h q (List.mem_cons_of_mem _ hq)) s

theorem dotProduct_zero_left (a b : List ℚ) (hz : ∀ x ∈ a, x = 0) :
    dotProduct a b = 0 := by
  unfold dotProduct
  refine foldl_add_mul_zero_left _ ?_ 0
  intro p hp
  exact hz p.1 (List.of_mem_zip (by simpa using hp)).1

theorem dotProduct_zero_right (a b : List ℚ) (hz : ∀ x ∈ b, x = 0) :
    dotProduct a b = 0 := by
  unfold dotProduct
  refine foldl_add_mul_zero_right _ ?_ 0
  intro p hp
  exact hz p.2 (List.of_mem_zip (by simpa using hp)).2

/-- Claim C10: on equal-length vectors at least one of which is all-zero,
`cosineSimilarity` does not throw — it returns the unguarded quotient — and
both the numerator and the norm-product divisor are exactly zero, so the
JavaScript original computes `0/0 = NaN` (over `ℚ` the quotient is the
junk value of division by zero); nothing in `findRelevantChunks` filters
such a value out of the ranking, whether the zero vector is the query
embedding (first argument) or a chunk embedding (second argument). -/
theorem cosineSimilarity_zero_vector (sqrt : ℚ → ℚ) (a b : List ℚ)
    (hlen : a.length = b.length)
    (hz : (∀ x ∈ a, x = 0) ∨ (∀ x ∈ b, x = 0)) (hs : sqrt 0 = 0) :
    cosineSimilarity sqrt a b =
      Except.ok (dotProduct a b / cosineDenom sqrt a b)
    ∧ dotProduct a b = 0 ∧ cosineDenom sqrt a b = 0 := by
  refine ⟨?_, ?_, ?_⟩
  · unfold cosineSimilarity
    rw [if_neg (by omega)]
  · rcases hz with hz | hz
    · exact dotProduct_zero_left a b hz
    · exact dotProduct_zero_right a b hz
  · unfold cosineDenom
    rcases hz with hz | hz
    · rw [dotProduct_zero_left a a hz, hs, zero_mul]
    · rw [dotProduct_zero_right b b hz, hs, mul_zero]

/-- A constant-zero stand-in for `Math.sqrt` (only `sqrt 0 = 0` matters). -/
def zeroSqrt : ℚ → ℚ := fun _ => 0

/-- Witness for C10 at concrete vectors, with the zero vector in the
second-argument (chunk-embedding) position. -/
theorem cosineSimilarity_zero_vector_witness :
    cosineDenom zeroSqrt [1, 1] [0, 0] = 0 :=
  (cosineSimilarity_zero_vector zeroSqrt [1, 1] [0, 0] rfl
    (Or.inr (by intro x hx; simp at hx; exact hx)) rfl).2.2

/-! ## C8: evidence attribution -/

theorem findEvidenceChunk_mem (answer : List Char) (docs : List DocumentChunk)
    (rel : List EmbeddingResult) (c : DocumentChunk)
    (h : findEvidenceChunk answer docs rel = some c) : c ∈ docs := by
  unfold findEvidenceChunk at h
  cases hfs : rel.findSome? (evidenceHit answer docs) with
  | some sc =>
    rw [hfs] at h
    simp only [Option.some.injEq] at h
    subst h
    obtain ⟨rc, _, hhit⟩ := List.exists_of_findSome?_eq_some hfs
    unfold evidenceHit at hhit
    split at hhit
    · rename_i sourceChunk hfind
      split at hhit
      · simp only [Option.some.injEq] at hhit
        subst hhit
        exact List.mem_of_find?_eq_some hfind
      · exact absurd hhit (by simp)
    · exact absurd hhit (by simp)
  | none =>
    rw [hfs] at h
    cases rel with
    | nil => simp at h
    | cons rc rest => exact List.mem_of_find?_eq_some h

/-- Claim C8: an `evidenceChunk` produced by `extractMetricValue` is always
a member of the document chunk list of the run; and when no retrieved
chunk's source text contains the QA answer verbatim, the evidence falls
back to the source chunk of the first (most similar) retrieved entry. -/
theorem evidence_attribution (M : AIModels) (metric : ESRSMetric)
    (relp : List (EmbeddingResult × ℚ)) (docs : List DocumentChunk) :
    (∀ c, (extractMetricValue M metric relp docs).evidenceChunk = some c →
      c ∈ docs)
    ∧ (∀ answer rel, (∀ rc ∈ rel, evidenceHit answer docs rc = none) →
        findEvidenceChunk answer docs rel =
          match rel with
          | [] => none
          | rc :: _ => docs.find? (fun c => c.id == rc.chunkId)) := by
  constructor
  · intro c hc
    unfold extractMetricValue at hc
    dsimp only at hc
    split at hc
    · simp at hc
    · split at hc
      · simp only at hc
        exact findEvidenceChunk_mem _ _ _ _ hc
      · simp at hc
  · intro answer rel hnone
    unfold findEvidenceChunk
    rw [List.findSome?_eq_none_iff.mpr hnone]

/-- A concrete chunk, index entry and model pair shared by the witnesses. -/
def sampleChunk : DocumentChunk :=
  { id := "c1".toList, page := some 1, startChar := some 0, endChar := some 10,
    text := "alpha beta".toList, source := "report.txt".toList }

def sampleER : EmbeddingResult :=
  { embedding := [1], text := "alpha beta".toList, chunkId := "c1".toList }

def sampleModels : AIModels :=
  { embed := fun _ => .ok [2],
    qa := fun _ _ => .ok { answer := "beta".toList, confidence := 1,
                           startOff := 6, endOff := 10 } }

/-- Witness for C8: the produced evidence chunk is in the document list,
and with an answer contained in no chunk the fallback returns the first
retrieved entry's source chunk. -/
theorem evidence_attribution_witness :
    sampleChunk ∈ [sampleChunk]
    ∧ findEvidenceChunk "zzz".toList [sampleChunk] [sampleER] = some sampleChunk :=
  ⟨(evidence_attribution sampleModels sampleE11 [(sampleER, 1)] [sampleChunk]).1
      sampleChunk rfl,
   (evidence_attribution sampleModels sampleE11 [(sampleER, 1)] [sampleChunk]).2
      "zzz".toList [sampleER] (by decide)⟩

/-! ## Stable sort properties -/

theorem length_insertRanked {α : Type} (le : α → α → Bool) (x : α) :
    ∀ l : List α, (insertRanked le x l).length = l.length + 1 := by
  intro l
  induction l with
  | nil => rfl
  | cons y ys ih =>
    unfold insertRanked
    split
    · simp
    · simp [ih]

theorem length_stableSort {α : Type} (le : α → α → Bool) :
    ∀ l : List α, (stableSort le l).length = l.length := by
  intro l
  induction l with
  | nil => rfl
  | cons x xs ih =>
    unfold stableSort
    rw [length_insertRanked, ih]
    rfl

theorem mem_insertRanked {α : Type} (le : α → α → Bool) (x z : α) :
    ∀ l : List α, z ∈ insertRanked le x l ↔ z = x ∨ z ∈ l := by
  intro l
  induction l with
  | nil => simp [insertRanked]
  | cons y ys ih =>
    unfold insertRanked
    split
    · simp
    · simp only [List.mem_cons, ih]
      tauto

theorem pairwise_insertRanked {α : Type} (le : α → α → Bool)
    (htrans : ∀ a b c, le a b = true → le b c = true → le a c = true)
    (htotal : ∀ a b, le a b = true ∨ le b a = true) (x : α) :
    ∀ l : List α, l.Pairwise (fun a b => le a b = true) →
    (insertRanked le x l).Pairwise (fun a b => le a b = true) := by
  intro l
  induction l with
  | nil => intro _; simp [insertRanked]
  | cons y ys ih =>
    intro hp
    rw [List.pairwise_cons] at hp
    unfold insertRanked
    split
    · rename_i hxy
      rw [List.pairwise_cons]
      constructor
      · intro z hz
        rcases List.mem_cons.mp hz with hzy | hz
        · subst hzy; exact hxy
        · exact htrans x y z hxy (hp.1 z hz)
      · rw [List.pairwise_cons]
        exact hp
    · rename_i hxy
      rw [List.pairwise_cons]
      constructor
      · intro z hz
        rcases (mem_insertRanked le x z ys).mp hz with hzx | hz
        · subst hzx
          rcases htotal z y with h | h
          · exact absurd h hxy
          · exact h
        · exact hp.1 z hz
      · exact ih hp.2

theorem pairwise_stableSort {α : Type} (le : α → α → Bool)
    (htrans : ∀ a b c, le a b = true → le b c = true → le a c = true)
    (htotal : ∀ a b, le a b = true ∨ le b a = true) :
    ∀ l : List α, (stableSort le l).Pairwise (fun a b => le a b = true) := by
  intro l
  induction l with
  | nil => simp [stableSort]
  | cons x xs ih =>
    unfold stableSort
    exact pairwise_insertRanked le htrans htotal x _ ih

theorem filter_insertRanked_pos {α : Type} (le : α → α → Bool) (p : α → Bool)
    (x : α) (hp : p x = true)
    (hpp : ∀ a b, p a = true → p b = true → le a b = true) :
    ∀ l : List α, (insertRanked le x l).filter p = x :: l.filter p := by
  intro l
  induction l with
  | nil => simp [insertRanked, hp]
  | cons y ys ih =>
    unfold insertRanked
    split
    · simp [List.filter_cons, hp]
    · rename_i hxy
      have hpy : p y = false := by
        by_contra hy
        rw [Bool.not_eq_false] at hy
        exact hxy (hpp x y hp hy)
      simp only [List.filter_cons, hpy]
      simpa using ih

theorem filter_insertRanked_neg {α : Type} (le : α → α → Bool) (p : α → Bool)
    (x : α) (hp : p x = false) :
    ∀ l : List α, (insertRanked le x l).filter p = l.filter p := by
  intro l
  induction l with
  | nil => simp [insertRanked, hp]
  | cons y ys ih =>
    unfold insertRanked
    split
    · simp [List.filter_cons, hp]
    · simp only [List.filter_cons]
      rw [ih]

theorem filter_stableSort {α : Type} (le : α → α → Bool) (p : α → Bool)
    (hpp : ∀ a b, p a = true → p b = true → le a b = true) :
    ∀ l : List α, (stableSort le l).filter p = l.filter p := by
  intro l
  induction l with
  | nil => rfl
  | cons x xs ih =>
    unfold stableSort
    by_cases hx : p x = true
    · rw [filter_insertRanked_pos le p x hx hpp, ih, List.filter_cons, if_pos (by simp [hx])]
    · rw [Bool.not_eq_true] at hx
      rw [filter_insertRanked_neg le p x hx, ih, List.filter_cons]
      simp [hx]

/-! ## C6: retrieval ranking -/

theorem exceptBind_ok {ε α β : Type} (a : α) (f : α → Except ε β) :
    (Bind.bind (Except.ok a) f : Except ε β) = f a := rfl

theorem exceptBind_err {ε α β : Type} (e : ε) (f : α → Except ε β) :
    (Bind.bind (Except.error e) f : Except ε β) = Except.error e := rfl

theorem mapM_pair_fst {ε : Type} (f : EmbeddingResult → Except ε ℚ) :
    ∀ (embs : List EmbeddingResult) (sims : List (EmbeddingResult × ℚ)),
    (embs.mapM (fun ch => do
      let s ← f ch
      pure (ch, s)) = Except.ok sims) → sims.map Prod.fst = embs := by
  intro embs
  induction embs with
  | nil =>
    intro sims h
    rw [List.mapM_nil] at h
    simp only [pure, Except.pure, Except.ok.injEq] at h
    subst h; rfl
  | cons e es ih =>
    intro sims h
    rw [List.mapM_cons] at h
    cases hfe : f e with
    | error err =>
      rw [hfe] at h
      simp [Bind.bind, Except.bind] at h
    | ok s =>
      rw [hfe] at h
      cases hes : es.mapM (fun ch => do
          let s ← f ch
          pure (ch, s)) with
      | error err =>
        rw [hes] at h
        simp [Bind.bind, Except.bind, pure, Except.pure] at h
      | ok rest =>
        rw [hes] at h
        simp only [Bind.bind, Except.bind, pure, Except.pure, Except.ok.injEq] at h
        subst h
        simp only [List.map_cons]
        rw [ih rest hes]

theorem simDesc_trans : ∀ a b c : EmbeddingResult × ℚ,
    simDesc a b = true → simDesc b c = true → simDesc a c = true := by
  intro a b c hab hbc
  simp only [simDesc, decide_eq_true_eq] at *
  exact le_trans hbc hab

theorem simDesc_total : ∀ a b : EmbeddingResult × ℚ,
    simDesc a b = true ∨ simDesc b a = true := by
  intro a b
  simp only [simDesc, decide_eq_true_eq]
  exact (le_total b.2 a.2)

/-- Claim C6: whenever `findRelevantChunks` returns a result list, that
list has length at most `topK` and at most the index size, is sorted
descending by similarity, and is the `topK`-prefix of a stable descending
sort of the per-entry similarity list — in particular, entries of equal
similarity appear in their original insertion order (the filter at any
similarity value is a sublist of the original order). -/
theorem findRelevantChunks_ranking (sqrt : ℚ → ℚ) (M : AIModels)
    (metric : ESRSMetric) (embs : List EmbeddingResult) (topK : Nat)
    (res : List (EmbeddingResult × ℚ))
    (h : findRelevantChunks sqrt M metric embs topK = .ok res) :
    res.length ≤ topK ∧ res.length ≤ embs.length
    ∧ List.Pairwise (fun x y => y.2 ≤ x.2) res
    ∧ ∃ sims : List (EmbeddingResult × ℚ), sims.map Prod.fst = embs
        ∧ res = (rankBySimilarity sims).take topK
        ∧ ∀ q : ℚ, ((res.filter (fun x => decide (x.2 = q))).Sublist
            (sims.filter (fun x => decide (x.2 = q)))) := by
  unfold findRelevantChunks at h
  dsimp only at h
  cases hqe : M.embed (metric.label ++ (' ' :: joinWith [' '] metric.keywords)
      ++ (' ' :: metric.description)) with
  | error err =>
    rw [hqe, exceptBind_err] at h
    exact absurd h (by simp)
  | ok qe =>
    rw [hqe, exceptBind_ok] at h
    cases hsims : embs.mapM (fun ch => do
        let s ← cosineSimilarity sqrt qe ch.embedding
        pure (ch, s)) with
    | error err =>
      rw [hsims, exceptBind_err] at h
      exact absurd h (by simp)
    | ok sims =>
      rw [hsims, exceptBind_ok] at h
      simp only [pure, Except.pure, Except.ok.injEq] at h
      subst h
      have hfst : sims.map Prod.fst = embs := mapM_pair_fst _ embs sims hsims
      have hlen : sims.length = embs.length := by
        rw [← hfst, List.length_map]
      have hsorted : (rankBySimilarity sims).Pairwise
          (fun a b => simDesc a b = true) :=
        pairwise_stableSort simDesc simDesc_trans simDesc_total sims
      refine ⟨?_, ?_, ?_, sims, hfst, rfl, ?_⟩
      · rw [List.length_take]; omega
      · rw [List.length_take]
        have : (rankBySimilarity sims).length = sims.length :=
          length_stableSort simDesc sims
        omega
      · have hp := hsorted.sublist (List.take_sublist topK _)
        exact hp.imp (fun hab => by
          simpa [simDesc, decide_eq_true_eq] using hab)
      · intro q
        have h1 : ((rankBySimilarity sims).take topK).filter
            (fun x => decide (x.2 = q)) |>.Sublist
            ((rankBySimilarity sims).filter (fun x => decide (x.2 = q))) :=
          (List.take_sublist topK _).filter _
        have h2 : (rankBySimilarity sims).filter (fun x => decide (x.2 = q)) =
            sims.filter (fun x => decide (x.2 = q)) := by
          refine filter_stableSort simDesc _ ?_ sims
          intro a b ha hb
          simp only [decide_eq_true_eq] at ha hb
          simp [simDesc, ha, hb]
        rw [h2] at h1
        exact h1

/-- An identity stand-in for `Math.sqrt` (no theorem depends on its values). -/
def idSqrt : ℚ → ℚ := fun q => q

/-- Witness for C6 on a concrete one-entry index. -/
theorem findRelevantChunks_ranking_witness :
    ([(sampleER, (1 : ℚ)/2)] : List (EmbeddingResult × ℚ)).length ≤ 5 :=
  (findRelevantChunks_ranking idSqrt sampleModels sampleE11 [sampleER] 5
    [(sampleER, (1 : ℚ)/2)] (by with_unfolding_all rfl)).1

/-! ## C1: coverage of extractAllMetrics -/

theorem parseMetricAnswer_fst_isSome (answer : List Char) (metric : ESRSMetric) :
    (parseMetricAnswer answer metric).1.isSome = true := by
  unfold parseMetricAnswer
  dsimp only
  split <;> simp

theorem extractMetricValue_metricId (M : AIModels) (metric : ESRSMetric)
    (relp : List (EmbeddingResult × ℚ)) (docs : List DocumentChunk) :
    (extractMetricValue M metric relp docs).metricId = metric.id := by
  unfold extractMetricValue
  dsimp only
  split
  · rfl
  · split <;> rfl

theorem extractMetricValue_explanation (M : AIModels) (metric : ESRSMetric)
    (relp : List (EmbeddingResult × ℚ)) (docs : List DocumentChunk) :
    (extractMetricValue M metric relp docs).explanation.isSome = true := by
  unfold extractMetricValue
  dsimp only
  split
  · rfl
  · split <;> rfl

theorem extractMetricValue_value_conf (M : AIModels) (metric : ESRSMetric)
    (relp : List (EmbeddingResult × ℚ)) (docs : List DocumentChunk)
    (h : (extractMetricValue M metric relp docs).value = none) :
    (extractMetricValue M metric relp docs).confidence = 0 := by
  unfold extractMetricValue at h ⊢
  dsimp only at h ⊢
  split at h
  · rename_i hcond
    rw [if_pos hcond]
  · rename_i hcond
    rw [if_neg hcond]
    split at h
    · rename_i qaResult heq
      exfalso
      simp only at h
      have hsome := parseMetricAnswer_fst_isSome qaResult.answer metric
      rw [h] at hsome
      simp at hsome
    · rename_i e heq
      rfl

/-- Claim C1: over any non-empty chunk list, `extractAllMetrics` returns
exactly one extraction per selected metric (the catalog entries with
priority at most 2, in selection order) — no omissions, no duplicates — and
never raises: the model is a total function, every per-metric failure being
caught and recorded in place, with a zero confidence whenever no value was
produced and an explanation always present. -/
theorem extractAllMetrics_coverage (sqrt : ℚ → ℚ) (M : AIModels)
    (catalog : List ESRSMetric) (chunks : List DocumentChunk)
    (_hne : chunks ≠ []) :
    ((extractAllMetrics sqrt M catalog chunks).extractions.map
        (fun e => e.metricId) = (selectedMetrics catalog).map (fun m => m.id))
    ∧ ∀ e ∈ (extractAllMetrics sqrt M catalog chunks).extractions,
        e.explanation.isSome = true ∧ (e.value = none → e.confidence = 0) := by
  constructor
  · unfold extractAllMetrics
    dsimp only
    rw [List.map_map]
    refine List.map_congr_left ?_
    intro metric _
    simp only [Function.comp_apply]
    cases hfr : findRelevantChunks sqrt M metric
        (generateChunkEmbeddings M chunks) 3 with
    | ok relevantChunks => exact extractMetricValue_metricId M metric _ chunks
    | error e => rfl
  · intro e he
    unfold extractAllMetrics at he
    dsimp only at he
    obtain ⟨metric, _, hfe⟩ := List.mem_map.mp he
    cases hfr : findRelevantChunks sqrt M metric
        (generateChunkEmbeddings M chunks) 3 with
    | ok relevantChunks =>
      rw [hfr] at hfe
      subst hfe
      exact ⟨extractMetricValue_explanation M metric _ chunks,
        extractMetricValue_value_conf M metric _ chunks⟩
    | error err =>
      rw [hfr] at hfe
      subst hfe
      exact ⟨rfl, fun _ => rfl⟩

/-- Witness for C1 on a concrete one-metric catalog and one-chunk run. -/
theorem extractAllMetrics_coverage_witness :
    (extractAllMetrics idSqrt sampleModels [sampleE11] [sampleChunk]).extractions.map
        (fun e => e.metricId) = (selectedMetrics [sampleE11]).map (fun m => m.id) :=
  (extractAllMetrics_coverage idSqrt sampleModels [sampleE11] [sampleChunk]
    (by simp)).1
